import Mathlib

/-!
Verification of the video-segmentation planner of the `ved` repository.

The planner is `gen_split_part_info` in `src/ved/video/utils.py` (lines
93–128).  The Python function takes a video path and a timestamp string;
it obtains the video duration via `extract_video_info` and the part
length via `convert_to_seconds` (both external collaborators per the
spec), then computes the split plan with elementary arithmetic on those
two numbers.  We embed the planner as a function of the two numeric
inputs `video_len` and `part_len` (rationals standing for the
real-valued seconds; all the arithmetic in the source is field
arithmetic, truncation, floor and ceiling, so the rational embedding is
exact) together with the three string inputs that feed the naming
scheme (`video_path.stem`, `suffix`, `video_path.suffix`).

Python semantics that the embedding must reproduce faithfully:
  * `video_len / part_len` on floats raises `ZeroDivisionError` when
    `part_len == 0`; we model the planner's result as `Except` and
    return `PlanError.zeroDivision` in that case.
  * `int(x)` truncates toward zero (`pyInt` below).
  * `math.ceil` / `math.fabs` are ordinary ceiling / absolute value.
  * `range(n)` for a non-positive `n : int` is empty
    (`Int.toNat` below clamps exactly like that).
  * the source yields the tuple `(str(start), stop, clip_name)` where
    `stop` is `None` or a stringified number; `str` on numbers is
    injective, so we keep the numeric values (`start : ℚ`,
    `stop : Option ℚ`) and record the loop-iteration values `part + 1`
    and `parts_total` (which the source interpolates into `clip_id`)
    as the `index` and `total` fields of the descriptor.
-/

/-- Error raised by the Python code: float division by zero
(`video_len / part_len` at line 104 of `utils.py` with `part_len = 0`). -/
inductive PlanError : Type where
  | zeroDivision : PlanError
  deriving DecidableEq

/-- A segment descriptor produced by the planner: one yielded item of
`gen_split_part_info`, enriched with the loop values `part + 1` (`index`)
and `parts_total` (`total`) that the source interpolates into the clip
name. `stop = none` is the sentinel (`None` in Python) meaning "through
end of source". -/
structure SplitPart : Type where
  index : ℕ
  total : ℤ
  start : ℚ
  stop : Option ℚ
  name : String
  deriving DecidableEq, Inhabited

/-- Python `int()` on a real number: truncation toward zero. -/
def pyInt (q : ℚ) : ℤ := if 0 ≤ q then ⌊q⌋ else ⌈q⌉

/-- `part_ratio = video_len / part_len` (utils.py line 104). -/
def part_ratio (video_len part_len : ℚ) : ℚ := video_len / part_len

/-- `leftover = math.fabs(part_ratio - int(part_ratio)) * part_len`
(utils.py line 107). -/
def leftover (video_len part_len : ℚ) : ℚ :=
  abs ( part_ratio video_len part_len
        - (pyInt ( part_ratio video_len part_len) : ℚ)) * part_len

/-- `parts_total = math.ceil(part_ratio) if leftover >= 1 else
int(part_ratio)` (utils.py line 110). -/
def parts_total (video_len part_len : ℚ) : ℤ :=
  if 1 ≤ leftover video_len part_len then ⌈ part_ratio video_len part_len⌉
  else pyInt ( part_ratio video_len part_len)

/-- `termination = None if leftover >= 1 else str(parts_total * part_len)`
(utils.py line 113). -/
def termination (video_len part_len : ℚ) : Option ℚ :=
  if 1 ≤ leftover video_len part_len then none
  else some ((parts_total video_len part_len : ℚ) * part_len)

/-- One loop iteration of `gen_split_part_info` (utils.py lines 116–128):
the descriptor yielded for loop variable `part`. -/
def mkSplitPart (video_len part_len : ℚ) (stem suffix ext : String)
    (part : ℕ) : SplitPart :=
  { index := part + 1
    total := parts_total video_len part_len
    start := part_len * part
    stop :=
      if ((part : ℤ) + 1) ≠ parts_total video_len part_len then
        some (part_len * ((part : ℚ) + 1))
      else termination video_len part_len
    name := stem ++ "_" ++ suffix ++ toString (part + 1) ++ "_of_"
              ++ toString (parts_total video_len part_len) ++ ext }

/-- The planner `gen_split_part_info` (utils.py lines 93–128), with the
probing / timestamp-parsing collaborators factored out: `video_len` is
the probed duration, `part_len` the converted part length, `stem` /
`ext` the stem and extension of the video path, `suffix` the naming
token.  The generator is materialised as the list of yielded
descriptors; Python's `ZeroDivisionError` on `part_len = 0` becomes the
`Except.error` branch. -/
def gen_split_part_info (video_len part_len : ℚ) (stem suffix ext : String) :
    Except PlanError (List SplitPart) :=
  if part_len = 0 then .error .zeroDivision
  else
    .ok ((List.range (parts_total video_len part_len).toNat).map
          (mkSplitPart video_len part_len stem suffix ext))

/-- `t` lies in the `[start, end)` range of descriptor `i` of the plan,
where — following the spec's coverage property — the *final*
descriptor's effective end (sentinel or pinned value) is treated as the
source duration, and a sentinel end is read as "through end of source"
(that is, the duration) wherever it occurs. -/
def SegContains (duration : ℚ) (plan : List SplitPart) (i : ℕ) (t : ℚ) :
    Prop :=
  i < plan.length ∧ (plan.getD i default).start ≤ t ∧
    t < (if i + 1 = plan.length then duration
         else ((plan.getD i default).stop).getD duration)

/-- The concrete plan the planner produces for a 25-second video split
into 10-second parts with stem "video", token "part" and extension
".mp4" — a shared test vector for witnesses and counterexamples. -/
def planA : List SplitPart :=
  [⟨1, 3, 0, some 10, "video_part1_of_3.mp4"⟩,
   ⟨2, 3, 10, some 20, "video_part2_of_3.mp4"⟩,
   ⟨3, 3, 20, none, "video_part3_of_3.mp4"⟩]

/-! ### Basic structure of a produced plan -/

theorem pyInt_of_nonneg {q : ℚ} (h : 0 ≤ q) : pyInt q = ⌊q⌋ := if_pos h

theorem pyInt_of_neg {q : ℚ} (h : ¬ 0 ≤ q) : pyInt q = ⌈q⌉ := if_neg h

theorem plan_shape (d L : ℚ) (s x e : String) (plan : List SplitPart)
    (hp : gen_split_part_info d L s x e = .ok plan) :
    plan = (List.range (parts_total d L).toNat).map (mkSplitPart d L s x e) := by
  by_cases hL : L = 0
  · unfold gen_split_part_info at hp
    rw [if_pos hL] at hp
    exact absurd hp (by simp)
  · unfold gen_split_part_info at hp
    rw [if_neg hL] at hp
    exact (Except.ok.inj hp).symm

theorem plan_length (d L : ℚ) (s x e : String) (plan : List SplitPart)
    (hp : gen_split_part_info d L s x e = .ok plan) :
    plan.length = (parts_total d L).toNat := by
  rw [plan_shape d L s x e plan hp]
  simp

theorem plan_getD (d L : ℚ) (s x e : String) (plan : List SplitPart)
    (hp : gen_split_part_info d L s x e = .ok plan)
    (i : ℕ) (h : i < plan.length) :
    plan.getD i default = mkSplitPart d L s x e i := by
  rw [plan_length d L s x e plan hp] at h
  rw [plan_shape d L s x e plan hp]
  rw [List.getD_eq_getElem _ _ (by simpa using h)]
  simp

theorem parts_total_cast (d L : ℚ) (s x e : String) (plan : List SplitPart)
    (hp : gen_split_part_info d L s x e = .ok plan) (h : 0 < plan.length) :
    (plan.length : ℤ) = parts_total d L := by
  have hl := plan_length d L s x e plan hp
  omega

/-! ### Evaluating the planner's numeric pipeline at known inputs -/

theorem leftover_eval (d L : ℚ) (k : ℤ) (h3 : 0 ≤ d / L)
    (h1 : (k : ℚ) ≤ d / L) (h2 : d / L < (k : ℚ) + 1) :
    leftover d L = (d / L - (k : ℚ)) * L := by
  have hfl : ⌊d / L⌋ = k := by
    rw [Int.floor_eq_iff]
    · exact ⟨h1, h2⟩
  have habs : 0 ≤ d / L - (k : ℚ) := by linarith
  unfold leftover part_ratio
  rw [pyInt_of_nonneg h3, hfl, abs_of_nonneg habs]

theorem leftover_eval_neg (d L : ℚ) (k : ℤ) (h3 : ¬ 0 ≤ d / L)
    (h1 : (k : ℚ) - 1 < d / L) (h2 : d / L ≤ (k : ℚ)) :
    leftover d L = ((k : ℚ) - d / L) * L := by
  have hcl : ⌈d / L⌉ = k := by
    rw [Int.ceil_eq_iff]
    · exact ⟨h1, h2⟩
  have habs : d / L - (k : ℚ) ≤ 0 := by linarith
  unfold leftover part_ratio
  rw [pyInt_of_neg h3, hcl, abs_of_nonpos habs]
  ring_nf

theorem parts_total_eval_big (d L : ℚ) (k : ℤ) (hL : 0 < L) (h3 : 0 ≤ d / L)
    (h1 : (k : ℚ) ≤ d / L) (h2 : d / L < (k : ℚ) + 1)
    (hbig : 1 ≤ (d / L - (k : ℚ)) * L) :
    parts_total d L = k + 1 := by
  have hlf := leftover_eval d L k h3 h1 h2
  have hfr : 0 < d / L - (k : ℚ) := by
    by_contra hc
    push_neg at hc
    nlinarith
  have hcl : ⌈d / L⌉ = k + 1 := by
    rw [Int.ceil_eq_iff]
    · constructor
      · push_cast
        linarith
      · push_cast
        linarith
  unfold parts_total
  rw [hlf, if_pos hbig]
  unfold part_ratio
  exact hcl

theorem parts_total_eval_small (d L : ℚ) (k : ℤ) (h3 : 0 ≤ d / L)
    (h1 : (k : ℚ) ≤ d / L) (h2 : d / L < (k : ℚ) + 1)
    (hsmall : (d / L - (k : ℚ)) * L < 1) :
    parts_total d L = k := by
  have hlf := leftover_eval d L k h3 h1 h2
  have hfl : ⌊d / L⌋ = k := by
    rw [Int.floor_eq_iff]
    · exact ⟨h1, h2⟩
  unfold parts_total
  rw [hlf, if_neg (not_le.mpr hsmall)]
  unfold pyInt part_ratio
  rw [if_pos h3, hfl]

theorem parts_total_eval_neg (d L : ℚ) (k : ℤ) (h3 : ¬ 0 ≤ d / L)
    (h1 : (k : ℚ) - 1 < d / L) (h2 : d / L ≤ (k : ℚ)) :
    parts_total d L = k := by
  have hcl : ⌈d / L⌉ = k := by
    rw [Int.ceil_eq_iff]
    · exact ⟨h1, h2⟩
  by_cases hb : 1 ≤ leftover d L
  · unfold parts_total
    rw [if_pos hb]
    unfold part_ratio
    exact hcl
  · unfold parts_total
    rw [if_neg hb]
    unfold pyInt part_ratio
    rw [if_neg h3]
    exact hcl

theorem plan_empty_of_nonpos (d L : ℚ) (s x e : String) (hL : L ≠ 0)
    (h : parts_total d L ≤ 0) :
    gen_split_part_info d L s x e = .ok [] := by
  unfold gen_split_part_info
  rw [if_neg hL, Int.toNat_of_nonpos h]
  rfl

theorem parts_total_25_10 : parts_total 25 10 = 3 := by
  have h := parts_total_eval_big 25 10 2 (by norm_num) (by norm_num)
    (by norm_num) (by norm_num) (by norm_num)
  norm_num at h
  exact h

theorem termination_25_10 : termination 25 10 = none := by
  unfold termination
  rw [leftover_eval 25 10 2 (by norm_num) (by norm_num) (by norm_num),
    if_pos (by norm_num)]

theorem mk_25_10_0 :
    mkSplitPart 25 10 "video" "part" ".mp4" 0 =
      ⟨1, 3, 0, some 10, "video_part1_of_3.mp4"⟩ := by
  unfold mkSplitPart
  rw [parts_total_25_10]
  simp only [SplitPart.mk.injEq]
  refine ⟨by trivial, by trivial, by norm_num, ?_, by trivial⟩
  rw [if_pos (by decide)]
  norm_num

theorem mk_25_10_1 :
    mkSplitPart 25 10 "video" "part" ".mp4" 1 =
      ⟨2, 3, 10, some 20, "video_part2_of_3.mp4"⟩ := by
  unfold mkSplitPart
  rw [parts_total_25_10]
  simp only [SplitPart.mk.injEq]
  refine ⟨by trivial, by trivial, by norm_num, ?_, by trivial⟩
  rw [if_pos (by decide)]
  norm_num

theorem mk_25_10_2 :
    mkSplitPart 25 10 "video" "part" ".mp4" 2 =
      ⟨3, 3, 20, none, "video_part3_of_3.mp4"⟩ := by
  unfold mkSplitPart
  rw [parts_total_25_10]
  simp only [SplitPart.mk.injEq]
  refine ⟨by trivial, by trivial, by norm_num, ?_, by trivial⟩
  rw [if_neg (by decide)]
  exact termination_25_10

theorem plan_25_10 :
    gen_split_part_info 25 10 "video" "part" ".mp4" = .ok planA := by
  unfold gen_split_part_info
  rw [if_neg (by norm_num : (10 : ℚ) ≠ 0), parts_total_25_10]
  show Except.ok
      (List.map (mkSplitPart 25 10 "video" "part" ".mp4") [0, 1, 2]) = _
  rw [List.map_cons, List.map_cons, List.map_cons, List.map_nil,
    mk_25_10_0, mk_25_10_1, mk_25_10_2]
  rfl

theorem plan_710_2 :
    gen_split_part_info (7/10) 2 "video" "part" ".mp4" = .ok [] := by
  refine plan_empty_of_nonpos _ _ _ _ _ (by norm_num) ?_
  rw [parts_total_eval_small (7/10) 2 0 (by norm_num) (by norm_num)
    (by norm_num) (by norm_num)]

theorem plan_half_10 :
    gen_split_part_info (1/2) 10 "video" "part" ".mp4" = .ok [] := by
  refine plan_empty_of_nonpos _ _ _ _ _ (by norm_num) ?_
  rw [parts_total_eval_small (1/2) 10 0 (by norm_num) (by norm_num)
    (by norm_num) (by norm_num)]

theorem plan_25_neg10 :
    gen_split_part_info 25 (-10) "v" "p" ".mp4" = .ok [] := by
  refine plan_empty_of_nonpos _ _ _ _ _ (by norm_num) ?_
  rw [parts_total_eval_neg 25 (-10) (-2) (by norm_num) (by norm_num)
    (by norm_num)]
  norm_num

theorem plan_neg25_10 :
    gen_split_part_info (-25) 10 "v" "p" ".mp4" = .ok [] := by
  refine plan_empty_of_nonpos _ _ _ _ _ (by norm_num) ?_
  rw [parts_total_eval_neg (-25) 10 (-2) (by norm_num) (by norm_num)
    (by norm_num)]
  norm_num

theorem plan_25_0 :
    gen_split_part_info 25 0 "v" "p" ".mp4" = .error .zeroDivision := by
  unfold gen_split_part_info
  rw [if_pos rfl]

/-! ### Claim theorems -/

/-- Claim C7 (confirmed): for duration `0` and any positive part length,
the planner produces an empty sequence of descriptors — a valid
"nothing to do" result — and no error. -/
theorem zero_duration_empty (L : ℚ) (s x e : String) (hL : 0 < L) :
    gen_split_part_info 0 L s x e = .ok [] := by
  refine plan_empty_of_nonpos _ _ _ _ _ (ne_of_gt hL) ?_
  rw [parts_total_eval_small 0 L 0 (by simp) (by simp) (by norm_num)
    (by norm_num)]

/-- Witness for C7 at `L = 10`. -/
theorem zero_duration_empty_witness :
    gen_split_part_info 0 10 "video" "part" ".mp4" = .ok [] :=
  zero_duration_empty 10 "video" "part" ".mp4" (by norm_num)

/-- Counterexample to claim C5 as stated: for the negative duration
`-25` with positive part length `10`, the planner does *not* report any
`InvalidArgument` condition — no such condition exists in the code — and
it *does* produce a plan: the empty one, returned without error. -/
theorem negative_duration_behavior_cex :
    gen_split_part_info (-25) 10 "v" "p" ".mp4" = .ok [] :=
  plan_neg25_10

/-- Claim C5 (amended): for every positive part length the planner never
raises an error: it returns a well-defined (possibly empty) plan, and
for every *negative* duration that plan is empty.  (The claimed
`InvalidArgument` report for negative durations does not exist in the
code.) -/
theorem negative_duration_behavior (d L : ℚ) (s x e : String) (hL : 0 < L) :
    ∃ plan, gen_split_part_info d L s x e = .ok plan ∧
      (d < 0 → plan = []) := by
  have hLne : L ≠ 0 := ne_of_gt hL
  by_cases hd : d < 0
  · have hr : d / L < 0 := div_neg_of_neg_of_pos hd hL
    have hpt : parts_total d L = ⌈d / L⌉ := by
      refine parts_total_eval_neg d L ⌈d / L⌉ (not_le.mpr hr) ?_ (Int.le_ceil _)
      have := Int.ceil_lt_add_one (d / L)
      linarith
    have hnp : parts_total d L ≤ 0 := by
      rw [hpt]
      exact Int.ceil_le.mpr (by exact_mod_cast hr.le)
    exact ⟨[], plan_empty_of_nonpos d L s x e hLne hnp, fun _ => rfl⟩
  · refine ⟨(List.range (parts_total d L).toNat).map (mkSplitPart d L s x e),
      ?_, fun hneg => absurd hneg hd⟩
    unfold gen_split_part_info
    rw [if_neg hLne]

/-- Witness for the amended C5 at `d = -25`, `L = 10`. -/
theorem negative_duration_behavior_witness :
    ∃ plan, gen_split_part_info (-25) 10 "v" "p" ".mp4" = .ok plan ∧
      ((-25 : ℚ) < 0 → plan = []) :=
  negative_duration_behavior (-25) 10 "v" "p" ".mp4" (by norm_num)

/-- Counterexample to claim C4 as stated: at `partLength = 0` the
planner *does* divide by zero (Python raises `ZeroDivisionError`, not
any `InvalidArgument` condition), and at the negative
`partLength = -10` it does not fail at all: it produces a plan (the
empty one). -/
theorem nonpositive_partlen_behavior_cex :
    gen_split_part_info 25 0 "v" "p" ".mp4" = .error .zeroDivision ∧
    gen_split_part_info 25 (-10) "v" "p" ".mp4" = .ok [] :=
  ⟨plan_25_0, plan_25_neg10⟩

/-- Claim C4 (amended): `partLength = 0` makes the planner fail with the
division-by-zero error for *any* duration, negative included (so it
*does* divide by zero — there is no `InvalidArgument` condition), while
a strictly negative `partLength` with a non-negative duration is not
rejected: the planner returns an empty plan without error.  In neither
case does it loop indefinitely (the embedding is total). -/
theorem nonpositive_partlen_behavior (d L : ℚ) (s x e : String)
    (hL : L ≤ 0) :
    (L = 0 → gen_split_part_info d L s x e = .error .zeroDivision) ∧
    (L < 0 → 0 ≤ d → gen_split_part_info d L s x e = .ok []) := by
  constructor
  · intro h0
    unfold gen_split_part_info
    rw [if_pos h0]
  · intro hneg hd
    refine plan_empty_of_nonpos _ _ _ _ _ (ne_of_lt hneg) ?_
    rcases eq_or_lt_of_le hd with he | hpos
    · rw [parts_total_eval_small d L 0 (by simp [← he]) (by simp [← he])
        (by simp [← he]) (by simp [← he])]
    · have hr : d / L < 0 := div_neg_of_pos_of_neg hpos hneg
      have hpt : parts_total d L = ⌈d / L⌉ := by
        refine parts_total_eval_neg d L ⌈d / L⌉ (not_le.mpr hr) ?_
          (Int.le_ceil _)
        have := Int.ceil_lt_add_one (d / L)
        linarith
      rw [hpt]
      exact Int.ceil_le.mpr (by exact_mod_cast hr.le)

/-- Witness for the amended C4, exercising the zero part length at the
*negative* duration `d = -25` (the division-by-zero conjunct holds for
any duration) and the negative part length `L = -10` at `d = 25`. -/
theorem nonpositive_partlen_behavior_witness :
    (((0 : ℚ) = 0 →
        gen_split_part_info (-25) 0 "w" "q" ".mp4" = .error .zeroDivision) ∧
      ((0 : ℚ) < 0 → 0 ≤ (-25 : ℚ) →
        gen_split_part_info (-25) 0 "w" "q" ".mp4" = .ok [])) ∧
    (((-10 : ℚ) = 0 →
        gen_split_part_info 25 (-10) "w" "q" ".mp4" = .error .zeroDivision) ∧
      ((-10 : ℚ) < 0 → 0 ≤ (25 : ℚ) →
        gen_split_part_info 25 (-10) "w" "q" ".mp4" = .ok [])) :=
  ⟨nonpositive_partlen_behavior (-25) 0 "w" "q" ".mp4" (by norm_num),
    nonpositive_partlen_behavior 25 (-10) "w" "q" ".mp4" (by norm_num)⟩

/-- Counterexample to claim C6 as stated: the duration `1/2` is strictly
between `0` and the part length `10`, yet the planner produces *zero*
descriptors, not one — the whole sub-second source is dropped
(`leftover = 1/2 < 1`, so `parts_total = int(0.05) = 0`). -/
theorem short_video_single_part_cex :
    gen_split_part_info (1/2) 10 "video" "part" ".mp4" = .ok [] :=
  plan_half_10

/-- Claim C6 (amended): a duration of at least one second that is
strictly less than the part length yields exactly one descriptor
covering the whole source: it starts at `0` and its end is the sentinel
"through end of source".  (Durations below one second yield zero
descriptors, as the counterexample shows.) -/
theorem short_video_single_part (d L : ℚ) (s x e : String)
    (h1 : 1 ≤ d) (h2 : d < L) :
    gen_split_part_info d L s x e =
      .ok [⟨1, 1, 0, none, s ++ "_" ++ x ++ "1" ++ "_of_" ++ "1" ++ e⟩] := by
  have hd0 : 0 < d := lt_of_lt_of_le zero_lt_one h1
  have hL : 0 < L := lt_trans hd0 h2
  have hLne : L ≠ 0 := ne_of_gt hL
  have hr0 : 0 ≤ d / L := div_nonneg hd0.le hL.le
  have hrlt : d / L < 1 := (div_lt_one hL).mpr h2
  have hlf : leftover d L = d := by
    rw [leftover_eval d L 0 hr0 (by exact_mod_cast hr0)
      (by push_cast; linarith)]
    push_cast
    rw [sub_zero, div_mul_cancel₀ _ hLne]
  have hpt : parts_total d L = 1 := by
    have h := parts_total_eval_big d L 0 hL hr0 (by exact_mod_cast hr0)
      (by push_cast; linarith)
      (by push_cast; rw [sub_zero, div_mul_cancel₀ _ hLne]; exact h1)
    simpa using h
  have hterm : termination d L = none := by
    unfold termination
    rw [hlf, if_pos h1]
  unfold gen_split_part_info
  rw [if_neg hLne, hpt]
  show Except.ok (List.map (mkSplitPart d L s x e) [0]) = _
  rw [List.map_cons, List.map_nil]
  have hmk : mkSplitPart d L s x e 0 =
      ⟨1, 1, 0, none, s ++ "_" ++ x ++ "1" ++ "_of_" ++ "1" ++ e⟩ := by
    unfold mkSplitPart
    rw [hpt, hterm]
    simp only [SplitPart.mk.injEq]
    refine ⟨by trivial, by trivial, by push_cast; ring, ?_, by trivial⟩
    rw [if_neg (by decide)]
  rw [hmk]

/-- Witness for the amended C6 at `d = 5`, `L = 10` (the spec's concrete
scenario 4, with the sentinel end the code actually produces). -/
theorem short_video_single_part_witness :
    gen_split_part_info 5 10 "video" "part" ".mp4" =
      .ok [⟨1, 1, 0, none,
        "video" ++ "_" ++ "part" ++ "1" ++ "_of_" ++ "1" ++ ".mp4"⟩] :=
  short_video_single_part 5 10 "video" "part" ".mp4" (by norm_num)
    (by norm_num)

/-- Claim C2 (confirmed): for every non-negative duration and positive
part length, with `ratio = duration / partLength` and
`leftover = |ratio - floor(ratio)| * partLength`, the planner produces
exactly `ceil(ratio)` descriptors when `leftover ≥ 1` and exactly
`floor(ratio)` descriptors when `leftover < 1`.  (Python's `int()`
truncates toward zero, which agrees with `floor` on the non-negative
ratios covered by the claim.) -/
theorem split_parts_count (d L : ℚ) (s x e : String) (hd : 0 ≤ d)
    (hL : 0 < L) :
    ∃ plan, gen_split_part_info d L s x e = .ok plan ∧
      (1 ≤ |d / L - (⌊d / L⌋ : ℚ)| * L → (plan.length : ℤ) = ⌈d / L⌉) ∧
      (|d / L - (⌊d / L⌋ : ℚ)| * L < 1 → (plan.length : ℤ) = ⌊d / L⌋) := by
  have hLne : L ≠ 0 := ne_of_gt hL
  have hr : 0 ≤ d / L := div_nonneg hd hL.le
  have hlf : leftover d L = |d / L - (⌊d / L⌋ : ℚ)| * L := by
    unfold leftover part_ratio
    rw [pyInt_of_nonneg hr]
  refine ⟨(List.range (parts_total d L).toNat).map (mkSplitPart d L s x e),
    by unfold gen_split_part_info; rw [if_neg hLne], ?_, ?_⟩
  · intro hbig
    have hpt : parts_total d L = ⌈d / L⌉ := by
      unfold parts_total
      rw [hlf, if_pos hbig]
      unfold part_ratio
      rfl
    have hc : 0 ≤ ⌈d / L⌉ := Int.ceil_nonneg hr
    simp only [List.length_map, List.length_range, hpt]
    omega
  · intro hsmall
    have hpt : parts_total d L = ⌊d / L⌋ := by
      unfold parts_total
      rw [hlf, if_neg (not_le.mpr hsmall)]
      unfold pyInt part_ratio
      rw [if_pos hr]
    have hc : 0 ≤ ⌊d / L⌋ := Int.floor_nonneg.mpr hr
    simp only [List.length_map, List.length_range, hpt]
    omega

/-- Witness for C2 at `d = 25`, `L = 10` (`ratio = 5/2`,
`leftover = 5 ≥ 1`, so `ceil(5/2) = 3` parts). -/
theorem split_parts_count_witness :
    ∃ plan, gen_split_part_info 25 10 "w" "q" ".mp4" = .ok plan ∧
      (1 ≤ |(25 : ℚ) / 10 - (⌊(25 : ℚ) / 10⌋ : ℚ)| * 10 →
        (plan.length : ℤ) = ⌈(25 : ℚ) / 10⌉) ∧
      (|(25 : ℚ) / 10 - (⌊(25 : ℚ) / 10⌋ : ℚ)| * 10 < 1 →
        (plan.length : ℤ) = ⌊(25 : ℚ) / 10⌋) :=
  split_parts_count 25 10 "w" "q" ".mp4" (by norm_num) (by norm_num)

/-- Claim C8 (confirmed): every descriptor's name is the base name, an
underscore, the suffix token, the 1-based index, the literal `_of_`, the
total count, and the original extension — the scheme
`{baseName}_{suffix}{index}_of_{total}{ext}`. -/
theorem clip_name_scheme (d L : ℚ) (s x e : String) (plan : List SplitPart)
    (hp : gen_split_part_info d L s x e = .ok plan) :
    ∀ i, i < plan.length →
      (plan.getD i default).name =
        s ++ "_" ++ x ++ toString ((plan.getD i default).index) ++ "_of_"
          ++ toString ((plan.getD i default).total) ++ e := by
  intro i h
  rw [plan_getD d L s x e plan hp i h]
  rfl


/-- Witness for C8 at `d = 25`, `L = 10`, descriptor `i = 0`. -/
theorem clip_name_scheme_witness :
    (planA.getD 0 default).name =
      "video" ++ "_" ++ "part" ++ toString ((planA.getD 0 default).index)
        ++ "_of_" ++ toString ((planA.getD 0 default).total) ++ ".mp4" :=
  clip_name_scheme 25 10 "video" "part" ".mp4" planA plan_25_10 0
    (by simp [planA])

/-- Claim C9 (confirmed): in every produced plan the `total` recorded in
each descriptor equals the number of descriptors produced (so it is the
same in all of them), and the descriptor at position `i` carries index
`i + 1` — the indices are exactly `1, 2, ..., total` in ascending order
with no duplicates or gaps. -/
theorem index_total_contract (d L : ℚ) (s x e : String)
    (plan : List SplitPart)
    (hp : gen_split_part_info d L s x e = .ok plan) :
    ∀ i, i < plan.length →
      (plan.getD i default).total = (plan.length : ℤ) ∧
      (plan.getD i default).index = i + 1 := by
  intro i h
  have hc := parts_total_cast d L s x e plan hp
    (lt_of_le_of_lt (Nat.zero_le i) h)
  rw [plan_getD d L s x e plan hp i h]
  exact ⟨hc.symm, rfl⟩

/-- Witness for C9 at `d = 25`, `L = 10`, descriptor `i = 2`. -/
theorem index_total_contract_witness :
    (planA.getD 2 default).total = (planA.length : ℤ) ∧
    (planA.getD 2 default).index = 2 + 1 :=
  index_total_contract 25 10 "video" "part" ".mp4" planA plan_25_10 2
    (by simp [planA])

/-- Claim C10 (confirmed): with exact arithmetic, every descriptor's
start is `partLength * (index - 1)`, every non-final descriptor's end is
`some (partLength * index)`, and each non-final descriptor's end
coincides exactly with the next descriptor's start (so every segment but
possibly the last has length exactly `partLength`). -/
theorem exact_boundary_formulas (d L : ℚ) (s x e : String)
    (hd : 0 ≤ d) (hL : 0 < L) (plan : List SplitPart)
    (hp : gen_split_part_info d L s x e = .ok plan) :
    ∀ i, i < plan.length →
      (plan.getD i default).start =
        L * (((plan.getD i default).index : ℚ) - 1) ∧
      (i + 1 < plan.length →
        (plan.getD i default).stop =
          some (L * ((plan.getD i default).index : ℚ)) ∧
        (plan.getD (i + 1) default).start =
          L * ((plan.getD i default).index : ℚ)) := by
  intro i h
  have hlen := plan_length d L s x e plan hp
  rw [plan_getD d L s x e plan hp i h]
  constructor
  · show L * (i : ℚ) = L * (((i + 1 : ℕ) : ℚ) - 1)
    push_cast
    ring
  · intro hsucc
    have hne : ((i : ℤ) + 1) ≠ parts_total d L := by omega
    constructor
    · show (if ((i : ℤ) + 1) ≠ parts_total d L
          then some (L * ((i : ℚ) + 1)) else termination d L) =
        some (L * ((i + 1 : ℕ) : ℚ))
      rw [if_pos hne]
      congr 1
      push_cast
      ring
    · rw [plan_getD d L s x e plan hp (i + 1) hsucc]
      show L * ((i + 1 : ℕ) : ℚ) = L * ((i + 1 : ℕ) : ℚ)
      rfl

/-- Witness for C10 at `d = 25`, `L = 10`, descriptor `i = 0` (whose
successor exists). -/
theorem exact_boundary_formulas_witness :
    (planA.getD 0 default).start =
      10 * (((planA.getD 0 default).index : ℚ) - 1) ∧
    (0 + 1 < planA.length →
      (planA.getD 0 default).stop =
        some (10 * ((planA.getD 0 default).index : ℚ)) ∧
      (planA.getD (0 + 1) default).start =
        10 * ((planA.getD 0 default).index : ℚ)) :=
  exact_boundary_formulas 25 10 "video" "part" ".mp4" (by norm_num)
    (by norm_num) planA plan_25_10 0 (by simp [planA])

/-- Counterexample to claim C3 as stated: at `duration = 25`,
`partLength = 10` the leftover is `5 ≥ 1`, and the claim predicts a
final descriptor `(3, 3, 20, 25)` with a *numeric* end equal to the
duration, the sentinel being reserved for exact multiples.  The code
does the opposite: the final descriptor is `(3, 3, 20, none)` — the
sentinel end — even though `25` is not an exact multiple of `10`; the
numeric (pinned) end is produced precisely in the `leftover < 1` case. -/
theorem sentinel_end_policy_cex :
    gen_split_part_info 25 10 "video" "part" ".mp4" =
      .ok [⟨1, 3, 0, some 10, "video_part1_of_3.mp4"⟩,
           ⟨2, 3, 10, some 20, "video_part2_of_3.mp4"⟩,
           ⟨3, 3, 20, none, "video_part3_of_3.mp4"⟩] :=
  plan_25_10

/-- Claim C3 (amended): in every produced plan the sentinel end
(`none`, "through end of source") appears exactly on the final
descriptor and exactly when `leftover ≥ 1` second — not when the
duration is an exact multiple of the part length; when `leftover < 1`
(which includes exact multiples) the final descriptor instead carries
the pinned numeric end `parts_total * partLength`. -/
theorem sentinel_end_policy (d L : ℚ) (s x e : String)
    (plan : List SplitPart)
    (hp : gen_split_part_info d L s x e = .ok plan) :
    ∀ i, i < plan.length →
      (((plan.getD i default).stop = none) ↔
        (i + 1 = plan.length ∧ 1 ≤ leftover d L)) ∧
      (i + 1 = plan.length → leftover d L < 1 →
        (plan.getD i default).stop = some ((parts_total d L : ℚ) * L)) := by
  intro i h
  have hlen := plan_length d L s x e plan hp
  rw [plan_getD d L s x e plan hp i h]
  by_cases hfin : ((i : ℤ) + 1) = parts_total d L
  · have hfin2 : i + 1 = plan.length := by omega
    have hstop : (mkSplitPart d L s x e i).stop = termination d L := by
      show (if ((i : ℤ) + 1) ≠ parts_total d L
          then some (L * ((i : ℚ) + 1)) else termination d L) = _
      rw [if_neg (not_not_intro hfin)]
    rw [hstop]
    unfold termination
    by_cases hb : 1 ≤ leftover d L
    · rw [if_pos hb]
      exact ⟨by simp [hfin2, hb], fun _ hlt => absurd hb (not_le.mpr hlt)⟩
    · rw [if_neg hb]
      exact ⟨by simp [hb], fun _ _ => by rw [mul_comm]⟩
  · have hfin2 : i + 1 ≠ plan.length := by omega
    have hstop : (mkSplitPart d L s x e i).stop =
        some (L * ((i : ℚ) + 1)) := by
      show (if ((i : ℤ) + 1) ≠ parts_total d L
          then some (L * ((i : ℚ) + 1)) else termination d L) = _
      rw [if_pos hfin]
    rw [hstop]
    exact ⟨by simp [hfin2], fun hc => absurd hc hfin2⟩

/-- Witness for the amended C3 at `d = 25`, `L = 10`, final descriptor
`i = 2`. -/
theorem sentinel_end_policy_witness :
    ((planA.getD 2 default).stop = none ↔
      (2 + 1 = planA.length ∧ 1 ≤ leftover 25 10)) ∧
    (2 + 1 = planA.length → leftover 25 10 < 1 →
      (planA.getD 2 default).stop = some ((parts_total 25 10 : ℚ) * 10)) :=
  sentinel_end_policy 25 10 "video" "part" ".mp4" planA plan_25_10 2
    (by simp [planA])

theorem SegContains_iff (duration : ℚ) (plan : List SplitPart) (i : ℕ)
    (t : ℚ) :
    SegContains duration plan i t ↔
      (i < plan.length ∧ (plan.getD i default).start ≤ t ∧
        t < (if i + 1 = plan.length then duration
             else ((plan.getD i default).stop).getD duration)) :=
  Iff.rfl

/-- Counterexample to claim C1 as stated: for `duration = 7/10` and
`partLength = 2` (both positive) the planner returns the *empty* plan,
so the point `1/2` of `[0, 7/10)` lies in no descriptor's range — the
whole interval is a gap of `0.7` seconds, far above the `1e-6`
tolerance.  (This happens whenever `duration < 1` and
`duration < partLength`: then `leftover = duration < 1` and
`total = floor(ratio) = 0`.) -/
theorem split_covers_duration_cex :
    gen_split_part_info (7/10) 2 "video" "part" ".mp4" = .ok [] ∧
    (0 ≤ (1/2 : ℚ) ∧ (1/2 : ℚ) < 7/10) ∧
    ¬ ∃ i : ℕ, SegContains (7/10) ([] : List SplitPart) i (1/2) := by
  refine ⟨plan_710_2, ⟨by norm_num, by norm_num⟩, ?_⟩
  rintro ⟨i, hi⟩
  rw [SegContains_iff] at hi
  exact Nat.not_lt_zero i hi.1

/-- Claim C1 (amended): for every positive duration and positive part
length *with `duration ≥ 1` or `duration ≥ partLength`* (so that the
plan is non-empty; the counterexample shows sub-second durations shorter
than the part length get an empty plan), the descriptors' `[start, end)`
ranges, in index order, partition `[0, duration)` *exactly* — every
point of `[0, duration)` lies in exactly one descriptor's range, with
the final descriptor's effective end (sentinel or pinned value) treated
as the duration.  Exact coverage in the rational embedding implies the
claimed coverage within the `1e-6` tolerance. -/
theorem split_covers_duration (d L : ℚ) (s x e : String) (hd : 0 < d)
    (hL : 0 < L) (hbig : 1 ≤ d ∨ L ≤ d) (plan : List SplitPart)
    (hp : gen_split_part_info d L s x e = .ok plan) :
    ∀ t : ℚ, (0 ≤ t ∧ t < d) ↔ ∃! i : ℕ, SegContains d plan i t := by
  have hLne : L ≠ 0 := ne_of_gt hL
  have hr0 : 0 ≤ d / L := div_nonneg hd.le hL.le
  have hrpos : 0 < d / L := div_pos hd hL
  have hlen := plan_length d L s x e plan hp
  have hN1 : 1 ≤ parts_total d L := by
    by_cases hb : 1 ≤ leftover d L
    · unfold parts_total
      rw [if_pos hb]
      unfold part_ratio
      have := Int.ceil_pos.mpr hrpos
      omega
    · have hdL : L ≤ d := by
        by_contra hc
        push_neg at hc
        have h1d : 1 ≤ d := hbig.resolve_right (not_le.mpr hc)
        have hrlt : d / L < 1 := (div_lt_one hL).mpr hc
        have hlf : leftover d L = d := by
          rw [leftover_eval d L 0 hr0 (by exact_mod_cast hr0)
            (by push_cast; linarith)]
          push_cast
          rw [sub_zero, div_mul_cancel₀ _ hLne]
        exact hb (by rw [hlf]; exact h1d)
      have hr1 : 1 ≤ d / L := (one_le_div hL).mpr hdL
      unfold parts_total
      rw [if_neg hb]
      unfold pyInt part_ratio
      rw [if_pos hr0]
      exact Int.le_floor.mpr (by exact_mod_cast hr1)
  have hub : L * ((parts_total d L : ℚ) - 1) < d := by
    have hle : parts_total d L ≤ ⌈d / L⌉ := by
      by_cases hb : 1 ≤ leftover d L
      · unfold parts_total
        rw [if_pos hb]
        unfold part_ratio
        exact le_refl _
      · unfold parts_total
        rw [if_neg hb]
        unfold pyInt part_ratio
        rw [if_pos hr0]
        exact Int.floor_le_ceil _
    have hc1 : (⌈d / L⌉ : ℚ) < d / L + 1 := Int.ceil_lt_add_one _
    have hlt : ((parts_total d L : ℚ)) - 1 < d / L := by
      have hcc : ((parts_total d L : ℚ)) ≤ (⌈d / L⌉ : ℚ) := by
        exact_mod_cast hle
      linarith
    calc L * ((parts_total d L : ℚ) - 1) < L * (d / L) :=
        mul_lt_mul_of_pos_left hlt hL
      _ = d := by field_simp
  have hn1 : 1 ≤ plan.length := by omega
  have hcastlen : (plan.length : ℤ) = parts_total d L := by omega
  have hstart : ∀ i, i < plan.length →
      (plan.getD i default).start = L * (i : ℚ) := by
    intro i h
    rw [plan_getD d L s x e plan hp i h]
    rfl
  have hstop : ∀ i, i + 1 < plan.length →
      (plan.getD i default).stop = some (L * ((i : ℚ) + 1)) := by
    intro i h
    rw [plan_getD d L s x e plan hp i (by omega)]
    show (if ((i : ℤ) + 1) ≠ parts_total d L
        then some (L * ((i : ℚ) + 1)) else termination d L) = _
    rw [if_pos (by omega)]
  have key : ∀ (t : ℚ) (a b : ℕ), a < b → SegContains d plan a t →
      SegContains d plan b t → False := by
    intro t a b hab hA hB
    rw [SegContains_iff] at hA hB
    obtain ⟨haL, has, hae⟩ := hA
    obtain ⟨hbL, hbs, hbe⟩ := hB
    have ha1lt : a + 1 < plan.length := by omega
    rw [if_neg (by omega : ¬ a + 1 = plan.length), hstop a ha1lt,
      Option.getD_some] at hae
    rw [hstart b hbL] at hbs
    have hcast : ((a : ℚ) + 1) ≤ (b : ℚ) := by exact_mod_cast hab
    have hmul : L * ((a : ℚ) + 1) ≤ L * (b : ℚ) :=
      mul_le_mul_of_nonneg_left hcast hL.le
    linarith
  have huniq : ∀ (t : ℚ) (a b : ℕ), SegContains d plan a t →
      SegContains d plan b t → a = b := by
    intro t a b ha hb
    rcases lt_trichotomy a b with h | h | h
    · exact (key t a b h ha hb).elim
    · exact h
    · exact (key t b a h hb ha).elim
  intro t
  constructor
  · rintro ⟨ht0, htd⟩
    have hq0 : (0 : ℤ) ≤ ⌊t / L⌋ := Int.floor_nonneg.mpr (div_nonneg ht0 hL.le)
    have hkc : ((⌊t / L⌋.toNat : ℤ)) = ⌊t / L⌋ := Int.toNat_of_nonneg hq0
    by_cases hkfin : ⌊t / L⌋.toNat < plan.length - 1
    · have hmem : SegContains d plan ⌊t / L⌋.toNat t := by
        rw [SegContains_iff]
        refine ⟨by omega, ?_, ?_⟩
        · rw [hstart ⌊t / L⌋.toNat (by omega)]
          have hfl : ((⌊t / L⌋.toNat : ℚ)) ≤ t / L := by
            have h2 := Int.floor_le (t / L)
            have h3 : ((⌊t / L⌋.toNat : ℤ) : ℚ) ≤ t / L := by
              rw [hkc]; exact h2
            exact_mod_cast h3
          calc L * ((⌊t / L⌋.toNat : ℚ)) ≤ L * (t / L) :=
              mul_le_mul_of_nonneg_left hfl hL.le
            _ = t := by field_simp
        · rw [if_neg (by omega : ¬ ⌊t / L⌋.toNat + 1 = plan.length),
            hstop ⌊t / L⌋.toNat (by omega), Option.getD_some]
          have hflt : t / L < ((⌊t / L⌋.toNat : ℚ)) + 1 := by
            have h2 := Int.lt_floor_add_one (t / L)
            have h3 : t / L < ((⌊t / L⌋.toNat : ℤ) : ℚ) + 1 := by
              rw [hkc]; exact_mod_cast h2
            exact_mod_cast h3
          calc t = L * (t / L) := by field_simp
            _ < L * (((⌊t / L⌋.toNat : ℚ)) + 1) :=
              mul_lt_mul_of_pos_left hflt hL
      exact ⟨⌊t / L⌋.toNat, hmem, fun j hj => huniq t j ⌊t / L⌋.toNat hj hmem⟩
    · have hmem : SegContains d plan (plan.length - 1) t := by
        rw [SegContains_iff]
        refine ⟨by omega, ?_, ?_⟩
        · rw [hstart (plan.length - 1) (by omega)]
          have hge : (((plan.length - 1 : ℕ) : ℤ)) ≤ ⌊t / L⌋ := by omega
          have h2 : (((plan.length - 1 : ℕ) : ℚ)) ≤ t / L := by
            have h3 := Int.le_floor.mp hge
            exact_mod_cast h3
          calc L * (((plan.length - 1 : ℕ) : ℚ)) ≤ L * (t / L) :=
              mul_le_mul_of_nonneg_left h2 hL.le
            _ = t := by field_simp
        · rw [if_pos (by omega : plan.length - 1 + 1 = plan.length)]
          exact htd
      exact ⟨plan.length - 1, hmem,
        fun j hj => huniq t j (plan.length - 1) hj hmem⟩
  · rintro ⟨i, hi, -⟩
    rw [SegContains_iff] at hi
    obtain ⟨hiL, his, hie⟩ := hi
    constructor
    · rw [hstart i hiL] at his
      have : (0 : ℚ) ≤ L * (i : ℚ) := mul_nonneg hL.le (Nat.cast_nonneg i)
      linarith
    · by_cases hif : i + 1 = plan.length
      · rw [if_pos hif] at hie
        exact hie
      · rw [if_neg hif] at hie
        rw [hstop i (by omega), Option.getD_some] at hie
        have hle2 : ((i : ℚ) + 1) ≤ ((parts_total d L : ℚ) - 1) := by
          have h3 : (i : ℤ) + 1 ≤ parts_total d L - 1 := by omega
          exact_mod_cast h3
        have hmul : L * ((i : ℚ) + 1) ≤ L * ((parts_total d L : ℚ) - 1) :=
          mul_le_mul_of_nonneg_left hle2 hL.le
        linarith

/-- Witness for the amended C1 at `d = 25`, `L = 10`, sample point
`t = 15`. -/
theorem split_covers_duration_witness :
    (0 ≤ (15 : ℚ) ∧ (15 : ℚ) < 25) ↔ ∃! i : ℕ, SegContains 25 planA i 15 :=
  split_covers_duration 25 10 "video" "part" ".mp4" (by norm_num)
    (by norm_num) (Or.inl (by norm_num)) planA plan_25_10 15
